import Mathlib

/-!
# Verification of `src/compiler/legacyIR.ts` (apollo-codegen legacy IR lowering)

This file gives a shallow embedding of the legacy-IR lowering stage and proves
properties of it.  The lowering consumes an upstream typed IR (selection sets,
type-case partitions, the transitive fragment closure) produced by external
collaborators that are not part of this module; those inputs are modelled from
the spec's interface description (§6) as plain data carried by the input tree.

Conventions:
* GraphQL object types are identified by their names (`String`).
* JavaScript arrays are Lean lists; array `join` with a newline is `joinNl`.
* Machine-word arithmetic in the SHA-256 model is `Nat` reduced mod `2^32`.
-/

namespace LegacyIR

/-! ## Upstream selection sets (modelled interface)

Modelled from the spec: the upstream compilation exposes, per selection set,
its full list of possible concrete types and an ordered list of selections,
each tagged as a field, a named-fragment reference, an inline type condition
(carrying its own nested selection set with its own possible types), or a
boolean-directive condition (carrying a nested selection set).  The classifier
in `legacyIR.ts` switches on exactly these kinds and ignores plain fields. -/

inductive Selection where
  | fragmentSpread (fragmentName : String)
  | typeCondition (possibleTypes : List String) (selections : List Selection)
  | booleanCondition (possibleTypes : List String) (selections : List Selection)
  | field (responseName : String)

structure SelectionSet where
  possibleTypes : List String
  selections : List Selection

/-- Embeds the body of `collectFragmentSpreads` (legacyIR.ts lines 223–241):
the `for`/`switch` loop over the direct selections of a selection set, with
`pts` the `possibleTypes` argument threaded unchanged through every recursive
call.  A direct `FragmentSpread` is pushed unconditionally; a `TypeCondition`
is descended into only when every target type is among the condition's own
possible types; a `BooleanCondition` is always descended into; any other
selection kind falls through the `switch`.  The source returns `FragmentSpread`
objects which both call sites immediately map to `fragmentName`; the model
returns the names directly. -/
def collectFromSelections (pts : List String) : List Selection → List String
  | [] => []
  | Selection.fragmentSpread name :: rest =>
      name :: collectFromSelections pts rest
  | Selection.typeCondition cpts csels :: rest =>
      (if pts.all (fun t => cpts.contains t) then collectFromSelections pts csels else [])
        ++ collectFromSelections pts rest
  | Selection.booleanCondition _ csels :: rest =>
      collectFromSelections pts csels ++ collectFromSelections pts rest
  | Selection.field _ :: rest => collectFromSelections pts rest

/-- Embeds `collectFragmentSpreads(context, selectionSet, possibleTypes = selectionSet.possibleTypes)`
(legacyIR.ts lines 218–242).  `context` is unused by the source function and is
dropped. -/
def collectFragmentSpreads (selectionSet : SelectionSet)
    (possibleTypes : List String := selectionSet.possibleTypes) : List String :=
  collectFromSelections possibleTypes selectionSet.selections

/-! ## Upstream partitioned IR (modelled interface)

Modelled from the spec: the type-case partition of a selection set (one
default field set plus zero or more extra records, each with a possible-types
subset and a field set) is produced by an external collaborator
(`TypeCase` / `mergeInFragmentSpreads`, not part of this module) and is
consumed read-only.  The model materialises that collaborator's output at
every nesting level of the input tree: a `PSelectionSet` pairs the raw
selection set with the partition the external step computed for it (already
reflecting the `mergeInFieldsFromFragmentSpreads` option).  The external
record's `fieldMap.size` is exposed as the length of its field list. -/

mutual
inductive NField where
  | mk (fieldAlias : Option String) (name : String) (type : String)
       (args : List (String × String)) (isConditional : Bool)
       (description : Option String) (isDeprecated : Bool)
       (deprecationReason : Option String)
       (selectionSet : Option PSelectionSet)

inductive TCRecord where
  | mk (possibleTypes : List String) (fields : List NField)

inductive PSelectionSet where
  | mk (raw : SelectionSet) (defaultFields : List NField) (records : List TCRecord)
end

def TCRecord.possibleTypes : TCRecord → List String
  | TCRecord.mk p _ => p

def TCRecord.fields : TCRecord → List NField
  | TCRecord.mk _ f => f

def PSelectionSet.raw : PSelectionSet → SelectionSet
  | PSelectionSet.mk r _ _ => r

def PSelectionSet.defaultFields : PSelectionSet → List NField
  | PSelectionSet.mk _ d _ => d

def PSelectionSet.records : PSelectionSet → List TCRecord
  | PSelectionSet.mk _ _ rs => rs

/-! ## Legacy IR output types (legacyIR.ts lines 36–89)

`LegacyBody` is the `{fields, fragmentSpreads, inlineFragments}` triple
returned by `transformSelectionSetToLegacyIR`; a `Field` with a nested
selection set carries such a triple (the TS object spread of the recursive
result), and one without carries `none` (the spread of `{}`). -/

mutual
inductive Field where
  | mk (responseName : String) (fieldName : String) (type : String)
       (args : List (String × String)) (isConditional : Bool)
       (description : Option String) (isDeprecated : Bool)
       (deprecationReason : Option String)
       (nested : Option LegacyBody)

inductive CompiledInlineFragment where
  | mk (typeCondition : String) (possibleTypes : List String)
       (fields : List Field) (fragmentSpreads : List String)

inductive LegacyBody where
  | mk (fields : List Field) (fragmentSpreads : List String)
       (inlineFragments : List CompiledInlineFragment)
end

def CompiledInlineFragment.typeCondition : CompiledInlineFragment → String
  | CompiledInlineFragment.mk t _ _ _ => t

def CompiledInlineFragment.possibleTypes : CompiledInlineFragment → List String
  | CompiledInlineFragment.mk _ p _ _ => p

def CompiledInlineFragment.fields : CompiledInlineFragment → List Field
  | CompiledInlineFragment.mk _ _ f _ => f

def CompiledInlineFragment.fragmentSpreads : CompiledInlineFragment → List String
  | CompiledInlineFragment.mk _ _ _ s => s

def LegacyBody.fields : LegacyBody → List Field
  | LegacyBody.mk f _ _ => f

def LegacyBody.fragmentSpreads : LegacyBody → List String
  | LegacyBody.mk _ s _ => s

def LegacyBody.inlineFragments : LegacyBody → List CompiledInlineFragment
  | LegacyBody.mk _ _ i => i

/-! ## The selection-set lowerer (legacyIR.ts lines 152–216) -/

/-- `field.alias || field.name` with JavaScript truthiness: an absent alias
and an empty-string alias both fall back to the field name. -/
def aliasOrName : Option String → String → String
  | some a, n => if a.length = 0 then n else a
  | none, n => n

/-- The per-record fan-out (legacyIR.ts lines 176–183): one
`CompiledInlineFragment` per possible type of the record, in the record's
possible-types order, sharing the record's lowered fields and fragment
spreads. -/
def expandRecord (rpts : List String) (fields : List Field)
    (fragmentSpreads : List String) : List CompiledInlineFragment :=
  rpts.map fun possibleType =>
    CompiledInlineFragment.mk possibleType [possibleType] fields fragmentSpreads

/-- The record filter of legacyIR.ts lines 162–168:
`!selectionSet.possibleTypes.every(type => record.possibleTypes.includes(type))
 && record.fieldMap.size > 0`. -/
def keepRecord (raw : SelectionSet) (rpts : List String) (rfields : List NField) : Bool :=
  !(raw.possibleTypes.all fun t => rpts.contains t) && decide (0 < rfields.length)

mutual
/-- Embeds `transformSelectionSetToLegacyIR` (legacyIR.ts lines 152–199).
The construction of the `TypeCase` (and the optional fragment-spread merge)
is the external partitioning step; its output arrives as the
`defaultFields`/`records` components of the `PSelectionSet`.  Note that the
filter on records and both `collectFragmentSpreads` calls use the *raw*
selection set's possible types, exactly as the source does. -/
def transformSelectionSetToLegacyIR : PSelectionSet → LegacyBody
  | PSelectionSet.mk raw defaultFields records =>
    LegacyBody.mk (transformFieldsToLegacyIR defaultFields)
      (collectFragmentSpreads raw)
      (lowerRecords raw records)

/-- Embeds the `.filter(...).flatMap(...)` pipeline over `typeCase.records`
(legacyIR.ts lines 161–184) as one list recursion; since `filter` preserves
order, filtering then flat-mapping equals flat-mapping a guarded body
(`lowerRecords_eq_filter_flatMap` below makes this exact). -/
def lowerRecords (raw : SelectionSet) : List TCRecord → List CompiledInlineFragment
  | [] => []
  | TCRecord.mk rpts rfields :: rest =>
    (if keepRecord raw rpts rfields then
        expandRecord rpts (transformFieldsToLegacyIR rfields)
          (collectFragmentSpreads raw rpts)
      else [])
      ++ lowerRecords raw rest

/-- Embeds `transformFieldsToLegacyIR` (legacyIR.ts lines 201–216), the map
over upstream fields. -/
def transformFieldsToLegacyIR : List NField → List Field
  | [] => []
  | f :: rest => transformFieldToLegacyIR f :: transformFieldsToLegacyIR rest

/-- The body of the map in `transformFieldsToLegacyIR`: copy the scalar
attributes, take `alias || name` as the response name, and recursively lower
the nested selection set when present. -/
def transformFieldToLegacyIR : NField → Field
  | NField.mk fieldAlias name type args isConditional description isDeprecated
      deprecationReason selectionSet =>
    Field.mk (aliasOrName fieldAlias name) name type args isConditional description
      isDeprecated deprecationReason
      (match selectionSet with
       | some ps => some (transformSelectionSetToLegacyIR ps)
       | none => none)
end

/-- Embeds the loop at legacyIR.ts lines 186–188, which stores each inline
fragment on the `inlineFragments` array under a string key equal to its type
condition's name, in array order (so a later fragment with the same type
condition overwrites an earlier one).  The loop writes only keys derived from
the array's own elements, so its final effect is this pure lookup view of the
list. -/
def namedIndex (frags : List CompiledInlineFragment) : String → Option CompiledInlineFragment :=
  frags.foldl
    (fun acc frag => fun n => if n = frag.typeCondition then some frag else acc n)
    (fun _ => none)

/-! ## SHA-256

Modelled from the spec: the operation identifier is "a 256-bit cryptographic
content digest of the UTF-8 bytes of `sourceWithFragments`, rendered as
lowercase hexadecimal (64 characters)"; the source obtains it from the
external Node `crypto` module via `createHash('sha256')`, `update` with the
string (UTF-8 by default) and `digest('hex')`.  The model implements the
FIPS 180-4 SHA-256 function over byte lists, with 32-bit words as `Nat`
reduced mod `2^32`. -/

namespace Sha256

def w32 (n : Nat) : Nat := n % 4294967296

def rotr (n x : Nat) : Nat := w32 ((x >>> n) ||| (x <<< (32 - n)))

def bSig0 (x : Nat) : Nat := (rotr 2 x) ^^^ (rotr 13 x) ^^^ (rotr 22 x)

def bSig1 (x : Nat) : Nat := (rotr 6 x) ^^^ (rotr 11 x) ^^^ (rotr 25 x)

def sSig0 (x : Nat) : Nat := (rotr 7 x) ^^^ (rotr 18 x) ^^^ (x >>> 3)

def sSig1 (x : Nat) : Nat := (rotr 17 x) ^^^ (rotr 19 x) ^^^ (x >>> 10)

def ch (x y z : Nat) : Nat := (x &&& y) ^^^ ((x ^^^ 4294967295) &&& z)

def maj (x y z : Nat) : Nat := (x &&& y) ^^^ (x &&& z) ^^^ (y &&& z)

/-- The 64 round constants of FIPS 180-4 §4.2.2, as decimal `Nat` words. -/
def K : List Nat :=
  [1116352408, 1899447441, 3049323471, 3921009573, 961987163, 1508970993,
   2453635748, 2870763221, 3624381080, 310598401, 607225278, 1426881987,
   1925078388, 2162078206, 2614888103, 3248222580, 3835390401, 4022224774,
   264347078, 604807628, 770255983, 1249150122, 1555081692, 1996064986,
   2554220882, 2821834349, 2952996808, 3210313671, 3336571891, 3584528711,
   113926993, 338241895, 666307205, 773529912, 1294757372, 1396182291,
   1695183700, 1986661051, 2177026350, 2456956037, 2730485921, 2820302411,
   3259730800, 3345764771, 3516065817, 3600352804, 4094571909, 275423344,
   430227734, 506948616, 659060556, 883997877, 958139571, 1322822218,
   1537002063, 1747873779, 1955562222, 2024104815, 2227730452, 2361852424,
   2428436474, 2756734187, 3204031479, 3329325298]

structure State where
  a : Nat
  b : Nat
  c : Nat
  d : Nat
  e : Nat
  f : Nat
  g : Nat
  h : Nat

/-- The initial hash value of FIPS 180-4 §5.3.3, as decimal `Nat` words. -/
def initState : State :=
  ⟨1779033703, 3144134277, 1013904242, 2773480762,
   1359893119, 2600822924, 528734635, 1541459225⟩

def round (st : State) (kw : Nat × Nat) : State :=
  let t1 := w32 (st.h + bSig1 st.e + ch st.e st.f st.g + kw.1 + kw.2)
  let t2 := w32 (bSig0 st.a + maj st.a st.b st.c)
  ⟨w32 (t1 + t2), st.a, st.b, st.c, w32 (st.d + t1), st.e, st.f, st.g⟩

/-- Extend the 16 block words by `n` further schedule words. -/
def scheduleGo : List Nat → Nat → List Nat
  | ws, 0 => ws
  | ws, n + 1 =>
    let L := ws.length
    let next := w32 (ws.getD (L - 16) 0 + sSig0 (ws.getD (L - 15) 0)
      + ws.getD (L - 7) 0 + sSig1 (ws.getD (L - 2) 0))
    scheduleGo (ws ++ [next]) n

def bytesToWords : List Nat → List Nat
  | b0 :: b1 :: b2 :: b3 :: rest =>
      (((b0 * 256 + b1) * 256 + b2) * 256 + b3) :: bytesToWords rest
  | _ => []

def compressBlock (st : State) (block : List Nat) : State :=
  let ws := scheduleGo (bytesToWords block) 48
  let t := (K.zip ws).foldl round st
  ⟨w32 (st.a + t.a), w32 (st.b + t.b), w32 (st.c + t.c), w32 (st.d + t.d),
   w32 (st.e + t.e), w32 (st.f + t.f), w32 (st.g + t.g), w32 (st.h + t.h)⟩

/-- Big-endian rendering of `n` as `k` bytes. -/
def beBytes (k n : Nat) : List Nat :=
  (List.range k).map fun i => (n >>> ((k - 1 - i) * 8)) % 256

/-- FIPS 180-4 padding: append `0x80`, zero bytes up to 56 mod 64, then the
bit length as an 8-byte big-endian integer. -/
def pad (msg : List Nat) : List Nat :=
  let L := msg.length
  let zeros := (120 - ((L + 1) % 64)) % 64
  msg ++ 128 :: (List.replicate zeros 0 ++ beBytes 8 (L * 8))

def chunks64 (l : List Nat) : List (List Nat) :=
  if h : l = [] then [] else l.take 64 :: chunks64 (l.drop 64)
termination_by l.length
decreasing_by
  simp only [List.length_drop]
  have hl : 0 < l.length := List.length_pos.mpr h
  omega

/-- The eight 32-bit words of the digest. -/
def digestWords (msg : List Nat) : List Nat :=
  let st := (chunks64 (pad msg)).foldl compressBlock initState
  [st.a, st.b, st.c, st.d, st.e, st.f, st.g, st.h]

def hexChar : Nat → Char
  | 0 => '0'
  | 1 => '1'
  | 2 => '2'
  | 3 => '3'
  | 4 => '4'
  | 5 => '5'
  | 6 => '6'
  | 7 => '7'
  | 8 => '8'
  | 9 => '9'
  | 10 => 'a'
  | 11 => 'b'
  | 12 => 'c'
  | 13 => 'd'
  | 14 => 'e'
  | 15 => 'f'
  | _ => '0'

/-- Fixed-width (8 hex digits) lowercase rendering of a 32-bit word. -/
def wordHexChars (w : Nat) : List Char :=
  (List.range 8).map fun i => hexChar ((w >>> ((7 - i) * 4)) &&& 15)

/-- UTF-8 encoding of a Unicode code point. -/
def utf8EncodeChar (c : Nat) : List Nat :=
  if c < 128 then [c]
  else if c < 2048 then [192 + c / 64, 128 + c % 64]
  else if c < 65536 then [224 + c / 4096, 128 + (c / 64) % 64, 128 + c % 64]
  else [240 + c / 262144, 128 + (c / 4096) % 64, 128 + (c / 64) % 64, 128 + c % 64]

def utf8Encode (s : String) : List Nat :=
  (s.toList.map fun c => utf8EncodeChar c.toNat).flatten

/-- The SHA-256 digest of the UTF-8 bytes of `s`, rendered as lowercase
hexadecimal — the model of `createHash('sha256')` / `update` / `digest('hex')`
as used at legacyIR.ts lines 111–113. -/
def sha256Hex (s : String) : String :=
  String.mk ((digestWords (utf8Encode s)).map wordHexChars).flatten

end Sha256

/-! ## Compiler options and contexts (legacyIR.ts lines 19–34, 91–150) -/

structure CompilerOptions where
  addTypename : Option Bool
  mergeInFieldsFromFragmentSpreads : Option Bool
  passthroughCustomScalars : Option Bool
  customScalarsPrefix : Option String
  namespaceOpt : Option String
  generateOperationIds : Option Bool

/-- Modelled from the spec: an upstream compiled operation as produced by the
external `compileToIR` frontend.  `fragmentsReferenced` is the output of the
external transitive fragment-reference collector
(`collectFragmentsReferenced`) for this operation's selection set, in the
closure's traversal order. -/
structure NOperation where
  filePath : Option String
  operationType : String
  rootType : String
  vars : List (String × String)
  source : String
  selectionSet : PSelectionSet
  fragmentsReferenced : List String

/-- Modelled from the spec: an upstream compiled fragment (`type` is its
declared type condition). -/
structure NFragment where
  filePath : Option String
  fragmentName : String
  source : String
  type : String
  selectionSet : PSelectionSet

/-- Modelled from the spec: the upstream compilation context handed to
`compileToLegacyIR` by the external `compileToIR`; the operation and fragment
maps are ordered name-keyed entry lists (`Object.entries` order). -/
structure NContext where
  schema : String
  operations : List (String × NOperation)
  fragments : List (String × NFragment)
  typesUsed : List String
  options : CompilerOptions

structure CompiledOperation where
  filePath : Option String
  operationName : String
  operationId : Option String
  operationType : String
  rootType : String
  vars : List (String × String)
  source : String
  sourceWithFragments : Option String
  fields : List Field
  fragmentSpreads : List String
  inlineFragments : List CompiledInlineFragment
  fragmentsReferenced : List String

structure CompiledFragment where
  filePath : Option String
  fragmentName : String
  source : String
  typeCondition : String
  possibleTypes : List String
  fields : List Field
  fragmentSpreads : List String
  inlineFragments : List CompiledInlineFragment

structure LegacyContext where
  schema : String
  operations : List (String × CompiledOperation)
  fragments : List (String × CompiledFragment)
  typesUsed : List String
  options : CompilerOptions

/-! ## The operation/fragment assembler (legacyIR.ts lines 91–150) -/

/-- JavaScript `Array.prototype.join` with separator `"\n"`. -/
def joinNl : List String → String
  | [] => ""
  | [s] => s
  | s :: rest => s ++ "\n" ++ joinNl rest

/-- The fixed message of the JavaScript `TypeError` thrown by reading the
`source` property of `undefined`; it names neither a fragment nor an
operation. -/
def jsUndefinedSourceError : String :=
  "TypeError: Cannot read properties of undefined (reading source)"

/-- Embeds `fragmentsReferenced.map(fragmentName => context.fragments[fragmentName].source)`
(legacyIR.ts lines 106–108).  In JavaScript a lookup of a missing fragment
name yields `undefined` and the subsequent `.source` access throws a
`TypeError` carrying a fixed runtime message, aborting the whole compilation;
the model surfaces that as an `Except.error`. -/
def fragmentSources (frs : List (String × NFragment)) :
    List String → Except String (List String)
  | [] => Except.ok []
  | n :: rest =>
    match List.lookup n frs with
    | some fr =>
      match fragmentSources frs rest with
      | Except.ok ss => Except.ok (fr.source :: ss)
      | Except.error e => Except.error e
    | none => Except.error jsUndefinedSourceError

/-- The body of the per-operation loop (legacyIR.ts lines 100–127): build
`sourceWithFragments` from the operation source and the referenced fragments'
sources in closure order, hash it, lower the selection set, and assemble the
`CompiledOperation`.  The identifier is computed and attached unconditionally;
`options.generateOperationIds` is never consulted. -/
def compileOperation (frs : List (String × NFragment)) (operationName : String)
    (op : NOperation) : Except String CompiledOperation :=
  match fragmentSources frs op.fragmentsReferenced with
  | Except.error e => Except.error e
  | Except.ok srcs =>
    let sourceWithFragments := joinNl (op.source :: srcs)
    let operationId := Sha256.sha256Hex sourceWithFragments
    let body := transformSelectionSetToLegacyIR op.selectionSet
    Except.ok
      { filePath := op.filePath
        operationName := operationName
        operationId := some operationId
        operationType := op.operationType
        rootType := op.rootType
        vars := op.vars
        source := op.source
        sourceWithFragments := some sourceWithFragments
        fields := body.fields
        fragmentSpreads := body.fragmentSpreads
        inlineFragments := body.inlineFragments
        fragmentsReferenced := op.fragmentsReferenced }

/-- The per-operation loop itself (legacyIR.ts lines 100–127): operations are
processed in entry order and the first thrown error aborts the loop. -/
def compileOperations (frs : List (String × NFragment)) :
    List (String × NOperation) → Except String (List (String × CompiledOperation))
  | [] => Except.ok []
  | (name, op) :: rest =>
    match compileOperation frs name op with
    | Except.error e => Except.error e
    | Except.ok cop =>
      match compileOperations frs rest with
      | Except.error e => Except.error e
      | Except.ok tail => Except.ok ((name, cop) :: tail)

/-- The body of the per-fragment loop (legacyIR.ts lines 131–139): copy the
fragment's metadata, expose its declared type condition and the possible types
it resolves to, and lower its selection set. -/
def compileFragment (fr : NFragment) : CompiledFragment :=
  let body := transformSelectionSetToLegacyIR fr.selectionSet
  { filePath := fr.filePath
    fragmentName := fr.fragmentName
    source := fr.source
    typeCondition := fr.type
    possibleTypes := fr.selectionSet.raw.possibleTypes
    fields := body.fields
    fragmentSpreads := body.fragmentSpreads
    inlineFragments := body.inlineFragments }

/-- Embeds `compileToLegacyIR` (legacyIR.ts lines 91–150).  The external
`compileToIR` frontend's output is the `NContext` input.  The operation loop
runs first; a thrown `TypeError` (missing fragment) aborts the whole
compilation before the fragment loop runs. -/
def compileToLegacyIR (ctx : NContext) : Except String LegacyContext :=
  match compileOperations ctx.fragments ctx.operations with
  | Except.error e => Except.error e
  | Except.ok ops =>
    Except.ok
      { schema := ctx.schema
        operations := ops
        fragments := ctx.fragments.map fun p => (p.1, compileFragment p.2)
        typesUsed := ctx.typesUsed
        options := ctx.options }

/-! ## Helper lemmas -/

theorem collectFromSelections_append (pts : List String) (xs ys : List Selection) :
    collectFromSelections pts (xs ++ ys)
      = collectFromSelections pts xs ++ collectFromSelections pts ys := by
  induction xs with
  | nil => simp [collectFromSelections]
  | cons x rest ih =>
    cases x with
    | fragmentSpread f => simp [collectFromSelections, ih]
    | typeCondition cpts csels => simp [collectFromSelections, ih]
    | booleanCondition bpts bsels => simp [collectFromSelections, ih]
    | field n => simp [collectFromSelections, ih]

theorem mem_collect_of_spread_mem (pts : List String) (sels : List Selection)
    (f : String) (h : Selection.fragmentSpread f ∈ sels) :
    f ∈ collectFromSelections pts sels := by
  induction sels with
  | nil => cases h
  | cons x rest ih =>
    rcases List.mem_cons.mp h with hx | hrest
    · cases hx
      simp [collectFromSelections]
    · cases x with
      | fragmentSpread g => simp [collectFromSelections, ih hrest]
      | typeCondition cpts csels =>
        simp only [collectFromSelections, List.mem_append]
        exact Or.inr (ih hrest)
      | booleanCondition bpts bsels =>
        simp only [collectFromSelections, List.mem_append]
        exact Or.inr (ih hrest)
      | field n => simpa [collectFromSelections] using ih hrest

theorem all_contains_iff (pts cpts : List String) :
    (pts.all fun t => cpts.contains t) = true ↔ ∀ t ∈ pts, t ∈ cpts := by
  simp [List.all_eq_true]

theorem keepRecord_iff (raw : SelectionSet) (rpts : List String) (rfields : List NField) :
    keepRecord raw rpts rfields = true
      ↔ (¬ ∀ t ∈ raw.possibleTypes, t ∈ rpts) ∧ rfields ≠ [] := by
  simp [keepRecord, List.all_eq_true, List.length_pos]

theorem lowerRecords_append (raw : SelectionSet) (rs1 rs2 : List TCRecord) :
    lowerRecords raw (rs1 ++ rs2) = lowerRecords raw rs1 ++ lowerRecords raw rs2 := by
  induction rs1 with
  | nil => simp [lowerRecords]
  | cons r rest ih =>
    cases r with
    | mk rpts rfields => simp [lowerRecords, ih]

/-- The fused recursion `lowerRecords` computes exactly the
`.filter(...).flatMap(...)` pipeline of the source. -/
theorem lowerRecords_eq_filter_flatMap (raw : SelectionSet) (records : List TCRecord) :
    lowerRecords raw records
      = (records.filter fun r => keepRecord raw r.possibleTypes r.fields).flatMap
          fun r =>
            expandRecord r.possibleTypes (transformFieldsToLegacyIR r.fields)
              (collectFragmentSpreads raw r.possibleTypes) := by
  induction records with
  | nil => simp [lowerRecords]
  | cons r rest ih =>
    cases r with
    | mk rpts rfields =>
      by_cases hk : keepRecord raw rpts rfields = true
      · simp [lowerRecords, List.filter_cons, TCRecord.possibleTypes, TCRecord.fields, hk, ih]
      · simp [lowerRecords, List.filter_cons, TCRecord.possibleTypes, TCRecord.fields, hk, ih]

/-! ## C1 -/

/-- C1: the fragment-spread classifier includes a direct named-fragment
reference unconditionally, descends into an inline type-condition selection
exactly when the condition's possible-types set is a superset of the target
subset, always descends into a boolean-directive-conditioned selection, skips
plain fields, and concatenates the results of the direct selections left to
right in source order without deduplication (`collectFragmentSpreads` is the
classifier applied to a selection set's direct selections). -/
theorem collectFragmentSpreads_classification
    (pts pts0 tgt : List String) (f fname : String) (cpts bpts : List String)
    (csels bsels rest sels : List Selection) :
    (collectFromSelections pts (Selection.fragmentSpread f :: rest)
        = f :: collectFromSelections pts rest)
  ∧ (collectFromSelections pts (Selection.typeCondition cpts csels :: rest)
        = (if ∀ t ∈ pts, t ∈ cpts then
              collectFromSelections pts csels ++ collectFromSelections pts rest
            else collectFromSelections pts rest))
  ∧ (collectFromSelections pts (Selection.booleanCondition bpts bsels :: rest)
        = collectFromSelections pts bsels ++ collectFromSelections pts rest)
  ∧ (collectFromSelections pts (Selection.field fname :: rest)
        = collectFromSelections pts rest)
  ∧ collectFragmentSpreads ⟨pts0, sels⟩ tgt = collectFromSelections tgt sels := by
  have key : collectFromSelections pts (Selection.typeCondition cpts csels :: rest)
      = (if (pts.all fun t => cpts.contains t) = true
          then collectFromSelections pts csels else [])
        ++ collectFromSelections pts rest := by
    simp only [collectFromSelections]
  refine ⟨by simp [collectFromSelections], ?_, by simp [collectFromSelections],
    by simp [collectFromSelections], rfl⟩
  rw [key]
  by_cases h : ∀ t ∈ pts, t ∈ cpts
  · rw [if_pos h, if_pos ((all_contains_iff pts cpts).mpr h)]
  · rw [if_neg h, if_neg (fun hc => h ((all_contains_iff pts cpts).mp hc)), List.nil_append]

/-! ## C10 -/

theorem namedIndex_foldl (frags : List CompiledInlineFragment)
    (acc : String → Option CompiledInlineFragment) (n : String) :
    frags.foldl
        (fun acc frag => fun m => if m = frag.typeCondition then some frag else acc m)
        acc n
      = ((frags.filter fun fr => fr.typeCondition == n).getLast?).or (acc n) := by
  induction frags using List.reverseRecOn with
  | nil => simp
  | append_singleton xs x ih =>
    rw [List.foldl_append, List.filter_append]
    by_cases hx : x.typeCondition = n
    · have hxb : (x.typeCondition == n) = true := by simp [hx]
      simp only [List.foldl_cons, List.foldl_nil, List.filter_cons, hxb, if_true,
        List.filter_nil, List.getLast?_concat, Option.or_some]
      simp [hx]
    · have hxb : (x.typeCondition == n) = false := by simp [hx]
      simp only [List.foldl_cons, List.foldl_nil, List.filter_cons, hxb,
        Bool.false_eq_true, if_false, List.filter_nil, List.append_nil]
      rw [if_neg fun hh => hx hh.symm]
      exact ih

/-- C10: the lowered `inlineFragments` list additionally carries a
string-keyed property for each contained fragment, keyed by its type
condition's name; the keyed view (`namedIndex`, the effect of the
post-processing loop) maps each name to the *last* fragment in array order
whose type condition has that name, and every contained fragment's name is
present as a key. -/
theorem inlineFragments_named_index (ps : PSelectionSet) (n : String) :
    (namedIndex (transformSelectionSetToLegacyIR ps).inlineFragments n
        = ((transformSelectionSetToLegacyIR ps).inlineFragments.filter
            fun fr => fr.typeCondition == n).getLast?)
  ∧ (∀ fr ∈ (transformSelectionSetToLegacyIR ps).inlineFragments,
        ∃ fr2, namedIndex (transformSelectionSetToLegacyIR ps).inlineFragments
            fr.typeCondition = some fr2 ∧ fr2.typeCondition = fr.typeCondition) := by
  constructor
  · rw [namedIndex, namedIndex_foldl, Option.or_none]
  · intro fr hfr
    have hmemf : fr ∈ List.filter (fun f2 => f2.typeCondition == fr.typeCondition)
        (transformSelectionSetToLegacyIR ps).inlineFragments :=
      List.mem_filter.mpr ⟨hfr, by simp⟩
    have hne : List.filter (fun f2 => f2.typeCondition == fr.typeCondition)
        (transformSelectionSetToLegacyIR ps).inlineFragments ≠ [] :=
      List.ne_nil_of_mem hmemf
    cases hlast : (List.filter (fun f2 => f2.typeCondition == fr.typeCondition)
        (transformSelectionSetToLegacyIR ps).inlineFragments).getLast? with
    | none => exact absurd (List.getLast?_eq_none_iff.mp hlast) hne
    | some v =>
      have hv : v ∈ List.filter (fun f2 => f2.typeCondition == fr.typeCondition)
          (transformSelectionSetToLegacyIR ps).inlineFragments := by
        rcases List.mem_getLast?_eq_getLast (Option.mem_def.mpr hlast) with ⟨hne2, hveq⟩
        rw [hveq]
        exact List.getLast_mem hne2
      refine ⟨v, ?_, ?_⟩
      · rw [namedIndex, namedIndex_foldl, hlast, Option.or_some]
      · have hbeq := (List.mem_filter.mp hv).2
        simpa using hbeq

/-! ## C2 -/

/-- C2: a fragment spread placed inside an inline type condition whose
possible-types set is a strict subset of the enclosing selection set's
possible types (and whose name is not contributed by the surrounding
selections) does not appear in the enclosing level's `fragmentSpreads`, while
every inline fragment emitted for the corresponding extra type-case record
(same possible-types subset, at least one field) does carry it in its own
`fragmentSpreads` — and at least one such inline fragment is emitted. -/
theorem narrowed_spread_visibility
    (fullPts cpts : List String) (csels pre post : List Selection) (f : String)
    (dflt : List NField) (records : List TCRecord) (r : TCRecord)
    (hsub : ∀ t ∈ cpts, t ∈ fullPts)
    (hstrict : ∃ t ∈ fullPts, t ∉ cpts)
    (hmem : Selection.fragmentSpread f ∈ csels)
    (hpre : f ∉ collectFromSelections fullPts pre)
    (hpost : f ∉ collectFromSelections fullPts post)
    (hr : r.possibleTypes = cpts) (hcne : cpts ≠ []) (hrf : r.fields ≠ []) :
    f ∉ (transformSelectionSetToLegacyIR
          (PSelectionSet.mk
            ⟨fullPts, pre ++ Selection.typeCondition cpts csels :: post⟩
            dflt records)).fragmentSpreads
  ∧ lowerRecords ⟨fullPts, pre ++ Selection.typeCondition cpts csels :: post⟩ [r] ≠ []
  ∧ ∀ cif ∈ lowerRecords
        ⟨fullPts, pre ++ Selection.typeCondition cpts csels :: post⟩ [r],
      f ∈ cif.fragmentSpreads := by
  obtain ⟨rpts, rfields⟩ := r
  simp only [TCRecord.possibleTypes] at hr
  simp only [TCRecord.fields] at hrf
  subst hr
  have hfull : ¬ (fullPts.all fun t => rpts.contains t) = true := by
    rcases hstrict with ⟨t, ht, htn⟩
    intro hc
    exact htn ((all_contains_iff _ _).mp hc t ht)
  have hsplit : collectFromSelections fullPts
      (pre ++ Selection.typeCondition rpts csels :: post)
      = collectFromSelections fullPts pre ++ collectFromSelections fullPts post := by
    rw [collectFromSelections_append]
    have hmid : collectFromSelections fullPts (Selection.typeCondition rpts csels :: post)
        = collectFromSelections fullPts post := by
      simp only [collectFromSelections]
      rw [if_neg hfull, List.nil_append]
    rw [hmid]
  have hkeep : keepRecord ⟨fullPts, pre ++ Selection.typeCondition rpts csels :: post⟩
      rpts rfields = true := by
    refine (keepRecord_iff _ _ _).mpr ⟨?_, hrf⟩
    rcases hstrict with ⟨t, ht, htn⟩
    exact fun hall => htn (hall t ht)
  have hlower : lowerRecords ⟨fullPts, pre ++ Selection.typeCondition rpts csels :: post⟩
      [TCRecord.mk rpts rfields]
      = expandRecord rpts (transformFieldsToLegacyIR rfields)
          (collectFragmentSpreads
            ⟨fullPts, pre ++ Selection.typeCondition rpts csels :: post⟩ rpts) := by
    simp [lowerRecords, hkeep]
  have hinner : f ∈ collectFromSelections rpts
      (pre ++ Selection.typeCondition rpts csels :: post) := by
    rw [collectFromSelections_append]
    refine List.mem_append.mpr (Or.inr ?_)
    have hcond : (rpts.all fun t => rpts.contains t) = true :=
      (all_contains_iff _ _).mpr fun t ht => ht
    simp only [collectFromSelections]
    rw [if_pos hcond]
    exact List.mem_append.mpr (Or.inl (mem_collect_of_spread_mem _ _ _ hmem))
  refine ⟨?_, ?_, ?_⟩
  · have hfs : (transformSelectionSetToLegacyIR
        (PSelectionSet.mk
          ⟨fullPts, pre ++ Selection.typeCondition rpts csels :: post⟩
          dflt records)).fragmentSpreads
        = collectFromSelections fullPts
            (pre ++ Selection.typeCondition rpts csels :: post) := by
      simp [transformSelectionSetToLegacyIR, LegacyBody.fragmentSpreads,
        collectFragmentSpreads]
    rw [hfs, hsplit]
    intro hcontra
    rcases List.mem_append.mp hcontra with hl | hr2
    · exact hpre hl
    · exact hpost hr2
  · rw [hlower]
    simp [expandRecord, hcne]
  · intro cif hcif
    rw [hlower] at hcif
    simp only [expandRecord, List.mem_map] at hcif
    rcases hcif with ⟨pt, _, hpt⟩
    rw [← hpt]
    simpa [CompiledInlineFragment.fragmentSpreads, collectFragmentSpreads] using hinner

def recC2 : TCRecord :=
  TCRecord.mk ["Cat"] [NField.mk none "lives" "Int" [] false none false none none]

theorem narrowed_spread_visibility_witness :
    "CatFields" ∉ (transformSelectionSetToLegacyIR
        (PSelectionSet.mk
          ⟨["Dog", "Cat"],
            [Selection.typeCondition ["Cat"] [Selection.fragmentSpread "CatFields"]]⟩
          [] [recC2])).fragmentSpreads
  ∧ lowerRecords
      ⟨["Dog", "Cat"],
        [Selection.typeCondition ["Cat"] [Selection.fragmentSpread "CatFields"]]⟩
      [recC2] ≠ []
  ∧ ∀ cif ∈ lowerRecords
        ⟨["Dog", "Cat"],
          [Selection.typeCondition ["Cat"] [Selection.fragmentSpread "CatFields"]]⟩
        [recC2],
      "CatFields" ∈ cif.fragmentSpreads :=
  narrowed_spread_visibility ["Dog", "Cat"] ["Cat"]
    [Selection.fragmentSpread "CatFields"] [] [] "CatFields" [] [recC2] recC2
    (by decide) (by decide) (List.mem_cons_self _ _)
    (by simp [collectFromSelections]) (by simp [collectFromSelections])
    rfl (by decide) (by simp [recC2, TCRecord.fields])

/-! ## C3 -/

/-- C3: the lowered `inlineFragments` list is the concatenation of each extra
record's contribution; a record contributes at least one inline fragment iff
its possible-types set does not cover the selection set's full possible-types
set and it selects at least one field (for records with a nonempty
possible-types subset); if every extra record covers the full set the lowered
`inlineFragments` list is empty; and a record with zero fields never produces
an inline fragment. -/
theorem inlineFragment_contribution_iff
    (raw : SelectionSet) (dflt : List NField) (records : List TCRecord) (r : TCRecord)
    (hne : r.possibleTypes ≠ []) :
    ((transformSelectionSetToLegacyIR (PSelectionSet.mk raw dflt records)).inlineFragments
        = (records.map fun rec => lowerRecords raw [rec]).flatten)
  ∧ (lowerRecords raw [r] ≠ []
        ↔ (¬ ∀ t ∈ raw.possibleTypes, t ∈ r.possibleTypes) ∧ r.fields ≠ [])
  ∧ ((∀ rec ∈ records, ∀ t ∈ raw.possibleTypes, t ∈ rec.possibleTypes)
        → (transformSelectionSetToLegacyIR
            (PSelectionSet.mk raw dflt records)).inlineFragments = [])
  ∧ (∀ rec : TCRecord, rec.fields = [] → lowerRecords raw [rec] = []) := by
  have hbody : (transformSelectionSetToLegacyIR
      (PSelectionSet.mk raw dflt records)).inlineFragments
      = lowerRecords raw records := by
    simp [transformSelectionSetToLegacyIR, LegacyBody.inlineFragments]
  have hsingle : ∀ rec : TCRecord, rec.fields = [] → lowerRecords raw [rec] = [] := by
    intro rec hrec
    obtain ⟨rpts, rfields⟩ := rec
    simp only [TCRecord.fields] at hrec
    subst hrec
    have hk : keepRecord raw rpts [] = false := by
      simp [keepRecord]
    simp [lowerRecords, hk]
  have hdecomp : ∀ rs : List TCRecord,
      lowerRecords raw rs = (rs.map fun rec => lowerRecords raw [rec]).flatten := by
    intro rs
    induction rs with
    | nil => simp [lowerRecords]
    | cons rec rest ih =>
      have : lowerRecords raw (rec :: rest)
          = lowerRecords raw [rec] ++ lowerRecords raw rest :=
        lowerRecords_append raw [rec] rest
      rw [this, ih]
      simp
  refine ⟨by rw [hbody]; exact hdecomp records, ?_, ?_, hsingle⟩
  · obtain ⟨rpts, rfields⟩ := r
    simp only [TCRecord.possibleTypes] at hne
    simp only [TCRecord.possibleTypes, TCRecord.fields]
    by_cases hk : keepRecord raw rpts rfields = true
    · have hlower : lowerRecords raw [TCRecord.mk rpts rfields]
          = expandRecord rpts (transformFieldsToLegacyIR rfields)
              (collectFragmentSpreads raw rpts) := by
        simp [lowerRecords, hk]
      rw [hlower]
      constructor
      · intro _
        exact (keepRecord_iff raw rpts rfields).mp hk
      · intro _
        simp [expandRecord, hne]
    · have hlower : lowerRecords raw [TCRecord.mk rpts rfields] = [] := by
        simp [lowerRecords, hk]
      rw [hlower]
      constructor
      · intro hcontra
        exact absurd rfl hcontra
      · intro hcond
        exact absurd ((keepRecord_iff raw rpts rfields).mpr hcond) hk
  · intro hcov
    rw [hbody]
    have hcovnil : ∀ rs : List TCRecord,
        (∀ rec ∈ rs, ∀ t ∈ raw.possibleTypes, t ∈ rec.possibleTypes)
          → lowerRecords raw rs = [] := by
      intro rs
      induction rs with
      | nil => intro _; simp [lowerRecords]
      | cons rec rest ih =>
        intro hcov2
        obtain ⟨rpts, rfields⟩ := rec
        have hall : ∀ t ∈ raw.possibleTypes, t ∈ rpts := by
          have := hcov2 (TCRecord.mk rpts rfields) (List.mem_cons_self _ _)
          simpa [TCRecord.possibleTypes] using this
        have hnk : ¬ keepRecord raw rpts rfields = true := fun hkt =>
          ((keepRecord_iff raw rpts rfields).mp hkt).1 hall
        have hk : keepRecord raw rpts rfields = false := by
          cases hkk : keepRecord raw rpts rfields
          · rfl
          · exact absurd hkk hnk
        have hrest : ∀ rec2 ∈ rest, ∀ t ∈ raw.possibleTypes, t ∈ rec2.possibleTypes :=
          fun rec2 h2 => hcov2 rec2 (List.mem_cons_of_mem _ h2)
        simp [lowerRecords, hk, ih hrest]
    exact hcovnil records hcov

def recC3 : TCRecord :=
  TCRecord.mk ["Dog"] [NField.mk none "barkVolume" "Int" [] false none false none none]

theorem inlineFragment_contribution_iff_witness :
    ((transformSelectionSetToLegacyIR
        (PSelectionSet.mk ⟨["Dog", "Cat"], []⟩ [] [recC3])).inlineFragments
        = ([recC3].map fun rec => lowerRecords ⟨["Dog", "Cat"], []⟩ [rec]).flatten)
  ∧ (lowerRecords ⟨["Dog", "Cat"], []⟩ [recC3] ≠ []
        ↔ (¬ ∀ t ∈ (SelectionSet.mk ["Dog", "Cat"] []).possibleTypes,
              t ∈ recC3.possibleTypes) ∧ recC3.fields ≠ [])
  ∧ ((∀ rec ∈ [recC3], ∀ t ∈ (SelectionSet.mk ["Dog", "Cat"] []).possibleTypes,
          t ∈ rec.possibleTypes)
        → (transformSelectionSetToLegacyIR
            (PSelectionSet.mk ⟨["Dog", "Cat"], []⟩ [] [recC3])).inlineFragments = [])
  ∧ (∀ rec : TCRecord, rec.fields = []
        → lowerRecords ⟨["Dog", "Cat"], []⟩ [rec] = []) :=
  inlineFragment_contribution_iff ⟨["Dog", "Cat"], []⟩ [] [recC3] recC3
    (by simp [recC3, TCRecord.possibleTypes])

/-! ## C4 -/

/-- C4: for a non-skipped extra type-case record in any position among the
records, the lowerer emits exactly one `CompiledInlineFragment` per possible
type in the record's subset, in the record's possible-types order, each
carrying the same lowered field list and the same fragment-spread list
(collected once for the record, restricted to its possible-types subset),
with `typeCondition` that single type and `possibleTypes` the one-element
list containing it. -/
theorem record_fanout
    (raw : SelectionSet) (dflt : List NField) (rs1 rs2 : List TCRecord) (r : TCRecord)
    (hcov : ¬ ∀ t ∈ raw.possibleTypes, t ∈ r.possibleTypes)
    (hf : r.fields ≠ []) :
    (transformSelectionSetToLegacyIR
        (PSelectionSet.mk raw dflt (rs1 ++ r :: rs2))).inlineFragments
      = lowerRecords raw rs1
        ++ (r.possibleTypes.map fun pt =>
              CompiledInlineFragment.mk pt [pt]
                (transformFieldsToLegacyIR r.fields)
                (collectFragmentSpreads raw r.possibleTypes))
        ++ lowerRecords raw rs2 := by
  obtain ⟨rpts, rfields⟩ := r
  simp only [TCRecord.possibleTypes] at hcov
  simp only [TCRecord.fields] at hf
  have hk : keepRecord raw rpts rfields = true :=
    (keepRecord_iff raw rpts rfields).mpr ⟨hcov, hf⟩
  have hbody : (transformSelectionSetToLegacyIR
      (PSelectionSet.mk raw dflt (rs1 ++ TCRecord.mk rpts rfields :: rs2))).inlineFragments
      = lowerRecords raw (rs1 ++ TCRecord.mk rpts rfields :: rs2) := by
    simp [transformSelectionSetToLegacyIR, LegacyBody.inlineFragments]
  rw [hbody, lowerRecords_append raw rs1 (TCRecord.mk rpts rfields :: rs2)]
  have hcons : lowerRecords raw (TCRecord.mk rpts rfields :: rs2)
      = expandRecord rpts (transformFieldsToLegacyIR rfields)
          (collectFragmentSpreads raw rpts) ++ lowerRecords raw rs2 := by
    simp [lowerRecords, hk]
  rw [hcons]
  simp [expandRecord, TCRecord.possibleTypes, TCRecord.fields, List.append_assoc]

def recC4 : TCRecord :=
  TCRecord.mk ["Dog", "Wolf"]
    [NField.mk none "barkVolume" "Int" [] false none false none none]

theorem record_fanout_witness :
    (transformSelectionSetToLegacyIR
        (PSelectionSet.mk ⟨["Dog", "Wolf", "Cat"], []⟩ [] [recC4])).inlineFragments
      = lowerRecords ⟨["Dog", "Wolf", "Cat"], []⟩ []
        ++ (recC4.possibleTypes.map fun pt =>
              CompiledInlineFragment.mk pt [pt]
                (transformFieldsToLegacyIR recC4.fields)
                (collectFragmentSpreads ⟨["Dog", "Wolf", "Cat"], []⟩
                  recC4.possibleTypes))
        ++ lowerRecords ⟨["Dog", "Wolf", "Cat"], []⟩ [] :=
  record_fanout ⟨["Dog", "Wolf", "Cat"], []⟩ [] [] [] recC4
    (by simp [recC4, TCRecord.possibleTypes])
    (by simp [recC4, TCRecord.fields])

/-! ## Digest format lemmas -/

def hexAlphabet : List Char := "0123456789abcdef".toList

theorem hexChar_mem (n : Nat) : Sha256.hexChar n ∈ hexAlphabet := by
  unfold Sha256.hexChar
  split <;> decide

theorem wordHexChars_length (w : Nat) : (Sha256.wordHexChars w).length = 8 := by
  simp [Sha256.wordHexChars]

theorem wordHexChars_mem (w : Nat) : ∀ c ∈ Sha256.wordHexChars w, c ∈ hexAlphabet := by
  intro c hc
  simp only [Sha256.wordHexChars, List.mem_map] at hc
  rcases hc with ⟨i, _, hi⟩
  rw [← hi]
  exact hexChar_mem _

theorem sha256Hex_length (s : String) : (Sha256.sha256Hex s).length = 64 := by
  show (((Sha256.digestWords (Sha256.utf8Encode s)).map Sha256.wordHexChars).flatten).length
      = 64
  simp [Sha256.digestWords, wordHexChars_length]

theorem sha256Hex_chars (s : String) :
    ∀ c ∈ (Sha256.sha256Hex s).toList, c ∈ hexAlphabet := by
  intro c hc
  have hc2 : c ∈ ((Sha256.digestWords (Sha256.utf8Encode s)).map
      Sha256.wordHexChars).flatten := hc
  rcases List.mem_flatten.mp hc2 with ⟨l, hl, hcl⟩
  rcases List.mem_map.mp hl with ⟨w, _, hw⟩
  rw [← hw] at hcl
  exact wordHexChars_mem w c hcl

/-! ## Assembler lemmas -/

theorem joinNl_cons_foldl (x : String) (l : List String) :
    joinNl (x :: l) = l.foldl (fun acc s2 => acc ++ "\n" ++ s2) x := by
  induction l generalizing x with
  | nil => simp [joinNl]
  | cons y rest ih =>
    have h1 : joinNl (x :: y :: rest) = x ++ "\n" ++ joinNl (y :: rest) := by
      simp [joinNl]
    rw [h1, List.foldl_cons, ← ih (x ++ "\n" ++ y)]
    cases rest with
    | nil => simp [joinNl, String.append_assoc]
    | cons z rest2 => simp [joinNl, String.append_assoc]

/-- The sources the loop at legacyIR.ts lines 106–108 reads, when every
referenced fragment is present: each referenced fragment's source, in closure
order. -/
def resolvedSources (frs : List (String × NFragment)) (l : List String) : List String :=
  l.map fun n => ((List.lookup n frs).map NFragment.source).getD ""

theorem fragmentSources_ok (frs : List (String × NFragment)) (l : List String)
    (hok : ∀ n ∈ l, (List.lookup n frs).isSome) :
    fragmentSources frs l = Except.ok (resolvedSources frs l) := by
  induction l with
  | nil => simp [fragmentSources, resolvedSources]
  | cons n rest ih =>
    have hn : (List.lookup n frs).isSome := hok n (List.mem_cons_self _ _)
    rcases Option.isSome_iff_exists.mp hn with ⟨fr, hfr⟩
    have hrest := ih fun m hm => hok m (List.mem_cons_of_mem _ hm)
    simp [fragmentSources, hfr, hrest, resolvedSources]

theorem compileOperation_ok (frs : List (String × NFragment)) (name : String)
    (op : NOperation)
    (hok : ∀ n ∈ op.fragmentsReferenced, (List.lookup n frs).isSome) :
    compileOperation frs name op = Except.ok
      { filePath := op.filePath
        operationName := name
        operationId := some (Sha256.sha256Hex
          (joinNl (op.source :: resolvedSources frs op.fragmentsReferenced)))
        operationType := op.operationType
        rootType := op.rootType
        vars := op.vars
        source := op.source
        sourceWithFragments :=
          some (joinNl (op.source :: resolvedSources frs op.fragmentsReferenced))
        fields := (transformSelectionSetToLegacyIR op.selectionSet).fields
        fragmentSpreads := (transformSelectionSetToLegacyIR op.selectionSet).fragmentSpreads
        inlineFragments := (transformSelectionSetToLegacyIR op.selectionSet).inlineFragments
        fragmentsReferenced := op.fragmentsReferenced } := by
  unfold compileOperation
  rw [fragmentSources_ok frs _ hok]

theorem compileOperation_ok_inv (frs : List (String × NFragment)) (name : String)
    (op : NOperation) (cop : CompiledOperation)
    (h : compileOperation frs name op = Except.ok cop) :
    ∃ s, cop.sourceWithFragments = some s
      ∧ cop.operationId = some (Sha256.sha256Hex s) := by
  unfold compileOperation at h
  cases hfs : fragmentSources frs op.fragmentsReferenced with
  | error e => rw [hfs] at h; cases h
  | ok srcs =>
    rw [hfs] at h
    cases h
    exact ⟨_, rfl, rfl⟩

theorem compileOperations_ok (frs : List (String × NFragment))
    (ops : List (String × NOperation))
    (hok : ∀ p ∈ ops, ∀ n ∈ p.2.fragmentsReferenced, (List.lookup n frs).isSome) :
    ∃ l, compileOperations frs ops = Except.ok l
      ∧ ∀ p ∈ ops, ∃ cop, (p.1, cop) ∈ l
          ∧ compileOperation frs p.1 p.2 = Except.ok cop := by
  induction ops with
  | nil => exact ⟨[], by simp [compileOperations], by simp⟩
  | cons q rest ih =>
    obtain ⟨name, op⟩ := q
    have hq : ∃ cop, compileOperation frs name op = Except.ok cop :=
      ⟨_, compileOperation_ok frs name op (hok (name, op) (List.mem_cons_self _ _))⟩
    rcases hq with ⟨cop, hcop⟩
    rcases ih (fun p hp n hn => hok p (List.mem_cons_of_mem _ hp) n hn) with ⟨l, hl, hmem⟩
    refine ⟨(name, cop) :: l, by simp [compileOperations, hcop, hl], ?_⟩
    intro p hp
    rcases List.mem_cons.mp hp with rfl | hrest
    · exact ⟨cop, List.mem_cons_self _ _, hcop⟩
    · rcases hmem p hrest with ⟨cop2, hcop2mem, hcop2⟩
      exact ⟨cop2, List.mem_cons_of_mem _ hcop2mem, hcop2⟩

theorem fragmentSources_error (frs : List (String × NFragment)) (l : List String)
    (h : ∃ n ∈ l, List.lookup n frs = none) :
    fragmentSources frs l = Except.error jsUndefinedSourceError := by
  induction l with
  | nil => rcases h with ⟨n, hn, _⟩; cases hn
  | cons m rest ih =>
    rcases h with ⟨n, hn, hlook⟩
    rcases List.mem_cons.mp hn with rfl | hrest
    · simp [fragmentSources, hlook]
    · cases hm : List.lookup m frs with
      | none => simp [fragmentSources, hm]
      | some fr =>
        have hr := ih ⟨n, hrest, hlook⟩
        simp [fragmentSources, hm, hr]

theorem compileOperation_dichotomy (frs : List (String × NFragment)) (name : String)
    (op : NOperation) :
    (∃ cop, compileOperation frs name op = Except.ok cop)
  ∨ compileOperation frs name op = Except.error jsUndefinedSourceError := by
  by_cases hok : ∀ n ∈ op.fragmentsReferenced, (List.lookup n frs).isSome
  · exact Or.inl ⟨_, compileOperation_ok frs name op hok⟩
  · refine Or.inr ?_
    have hbad : ∃ n ∈ op.fragmentsReferenced, List.lookup n frs = none := by
      push_neg at hok
      rcases hok with ⟨n, hn, hnone⟩
      exact ⟨n, hn, Option.not_isSome_iff_eq_none.mp hnone⟩
    unfold compileOperation
    rw [fragmentSources_error frs _ hbad]

theorem compileOperations_error (frs : List (String × NFragment))
    (ops : List (String × NOperation))
    (h : ∃ p ∈ ops, ∃ n ∈ p.2.fragmentsReferenced, List.lookup n frs = none) :
    compileOperations frs ops = Except.error jsUndefinedSourceError := by
  induction ops with
  | nil => rcases h with ⟨p, hp, _⟩; cases hp
  | cons q rest ih =>
    obtain ⟨name, op⟩ := q
    rcases h with ⟨p, hp, hbad⟩
    rcases List.mem_cons.mp hp with rfl | hrest
    · have herr : compileOperation frs name op = Except.error jsUndefinedSourceError := by
        unfold compileOperation
        rw [fragmentSources_error frs _ hbad]
      simp [compileOperations, herr]
    · have hrec := ih ⟨p, hrest, hbad⟩
      rcases compileOperation_dichotomy frs name op with ⟨cop, hcop⟩ | herr
      · simp [compileOperations, hcop, hrec]
      · simp [compileOperations, herr]

/-! ## C5 -/

/-- C5: a compiled operation's `operationId` is the SHA-256 digest of the
UTF-8 bytes of its `sourceWithFragments`, rendered as 64 lowercase
hexadecimal characters, and it is a pure function of `sourceWithFragments`:
any two successfully compiled operations with the same `sourceWithFragments`
receive the same identifier. -/
theorem operationId_content_digest
    (frs frs2 : List (String × NFragment)) (name name2 : String)
    (op op2 : NOperation)
    (hok : ∀ n ∈ op.fragmentsReferenced, (List.lookup n frs).isSome) :
    (∃ cop, compileOperation frs name op = Except.ok cop
      ∧ ∃ s, cop.sourceWithFragments = some s
          ∧ cop.operationId = some (Sha256.sha256Hex s)
          ∧ (Sha256.sha256Hex s).length = 64
          ∧ ∀ c ∈ (Sha256.sha256Hex s).toList, c ∈ hexAlphabet)
  ∧ (∀ cop cop2, compileOperation frs name op = Except.ok cop
      → compileOperation frs2 name2 op2 = Except.ok cop2
      → cop.sourceWithFragments = cop2.sourceWithFragments
      → cop.operationId = cop2.operationId) := by
  constructor
  · exact ⟨_, compileOperation_ok frs name op hok,
      _, rfl, rfl, sha256Hex_length _, sha256Hex_chars _⟩
  · intro cop cop2 h1 h2 hsw
    rcases compileOperation_ok_inv frs name op cop h1 with ⟨s1, hs1, hid1⟩
    rcases compileOperation_ok_inv frs2 name2 op2 cop2 h2 with ⟨s2, hs2, hid2⟩
    rw [hs1, hs2] at hsw
    cases hsw
    rw [hid1, hid2]

def opC5 : NOperation :=
  ⟨none, "query", "Query", [], "query Q5 { hero }",
    PSelectionSet.mk ⟨["Query"], []⟩ [] [], []⟩

theorem operationId_content_digest_witness :
    (∃ cop, compileOperation [] "Q5" opC5 = Except.ok cop
      ∧ ∃ s, cop.sourceWithFragments = some s
          ∧ cop.operationId = some (Sha256.sha256Hex s)
          ∧ (Sha256.sha256Hex s).length = 64
          ∧ ∀ c ∈ (Sha256.sha256Hex s).toList, c ∈ hexAlphabet)
  ∧ (∀ cop cop2, compileOperation [] "Q5" opC5 = Except.ok cop
      → compileOperation [] "Q5" opC5 = Except.ok cop2
      → cop.sourceWithFragments = cop2.sourceWithFragments
      → cop.operationId = cop2.operationId) :=
  operationId_content_digest [] [] "Q5" "Q5" opC5 opC5 (by simp [opC5])

/-! ## C6 -/

/-- C6: a compiled operation's `sourceWithFragments` is the operation's own
source followed by the source of each transitively referenced fragment, in
the order the fragment closure returns them, joined by a single newline
character. -/
theorem sourceWithFragments_concatenation
    (frs : List (String × NFragment)) (name : String) (op : NOperation)
    (hok : ∀ n ∈ op.fragmentsReferenced, (List.lookup n frs).isSome) :
    ∃ cop, compileOperation frs name op = Except.ok cop
      ∧ cop.sourceWithFragments
          = some ((resolvedSources frs op.fragmentsReferenced).foldl
              (fun acc s2 => acc ++ "\n" ++ s2) op.source)
      ∧ resolvedSources frs op.fragmentsReferenced
          = op.fragmentsReferenced.map
              fun n => ((List.lookup n frs).map NFragment.source).getD "" := by
  refine ⟨_, compileOperation_ok frs name op hok, ?_, rfl⟩
  rw [← joinNl_cons_foldl]

def frC6 : NFragment :=
  ⟨none, "HeroDetails", "fragment HeroDetails on Hero { name }", "Hero",
    PSelectionSet.mk ⟨["Hero"], []⟩ [] []⟩

def opC6 : NOperation :=
  ⟨none, "query", "Query", [], "query Q6 { hero { ...HeroDetails } }",
    PSelectionSet.mk ⟨["Query"], []⟩ [] [], ["HeroDetails"]⟩

theorem sourceWithFragments_concatenation_witness :
    ∃ cop, compileOperation [("HeroDetails", frC6)] "Q6" opC6 = Except.ok cop
      ∧ cop.sourceWithFragments
          = some ((resolvedSources [("HeroDetails", frC6)]
                opC6.fragmentsReferenced).foldl
              (fun acc s2 => acc ++ "\n" ++ s2) opC6.source)
      ∧ resolvedSources [("HeroDetails", frC6)] opC6.fragmentsReferenced
          = opC6.fragmentsReferenced.map
              fun n => ((List.lookup n [("HeroDetails", frC6)]).map
                NFragment.source).getD "" :=
  sourceWithFragments_concatenation [("HeroDetails", frC6)] "Q6" opC6
    (by simp [opC6, List.lookup])

/-! ## C7 -/

/-- C7 (code bug): the `generateOperationIds` option does not gate identifier
computation — `compileToLegacyIR` computes and attaches an `operationId` to
every compiled operation even when the option is absent or `false` (the
option is never consulted). -/
theorem operationId_not_gated (ctx : NContext) (name : String) (op : NOperation)
    (hgen : ctx.options.generateOperationIds ≠ some true)
    (hmem : (name, op) ∈ ctx.operations)
    (hok : ∀ p ∈ ctx.operations, ∀ n ∈ p.2.fragmentsReferenced,
        (List.lookup n ctx.fragments).isSome) :
    ∃ lctx cop, compileToLegacyIR ctx = Except.ok lctx
      ∧ (name, cop) ∈ lctx.operations
      ∧ cop.operationId.isSome = true := by
  rcases compileOperations_ok ctx.fragments ctx.operations hok with ⟨l, hl, hmemall⟩
  rcases hmemall (name, op) hmem with ⟨cop, hcopmem, hcop⟩
  refine ⟨{ schema := ctx.schema, operations := l,
            fragments := ctx.fragments.map fun p => (p.1, compileFragment p.2),
            typesUsed := ctx.typesUsed, options := ctx.options }, cop, ?_, ?_, ?_⟩
  · unfold compileToLegacyIR
    rw [hl]
  · exact hcopmem
  · rcases compileOperation_ok_inv ctx.fragments name op cop hcop with ⟨s, _, hid⟩
    simp [hid]

def opC7 : NOperation :=
  ⟨none, "query", "Query", [], "query Q7 { hero }",
    PSelectionSet.mk ⟨["Query"], []⟩ [] [], []⟩

def ctxC7 : NContext :=
  ⟨"schema", [("Q7", opC7)], [], [],
    ⟨none, none, none, none, none, some false⟩⟩

theorem operationId_not_gated_witness :
    ∃ lctx cop, compileToLegacyIR ctxC7 = Except.ok lctx
      ∧ ("Q7", cop) ∈ lctx.operations
      ∧ cop.operationId.isSome = true :=
  operationId_not_gated ctxC7 "Q7" opC7 (by decide)
    (List.mem_cons_self _ _) (by simp [ctxC7, opC7])

/-! ## C8 -/

/-- C8 (amended): when the transitive fragment closure of some operation
contains a name with no corresponding fragment definition, the whole
compilation aborts, but with the JavaScript runtime's fixed generic
`TypeError` message — which names neither the missing fragment nor the
referencing operation. -/
theorem missing_fragment_aborts_generic (ctx : NContext)
    (h : ∃ p ∈ ctx.operations, ∃ n ∈ p.2.fragmentsReferenced,
        List.lookup n ctx.fragments = none) :
    compileToLegacyIR ctx = Except.error jsUndefinedSourceError := by
  unfold compileToLegacyIR
  rw [compileOperations_error ctx.fragments ctx.operations h]

def opC8 : NOperation :=
  ⟨none, "query", "Query", [], "query Q { hero { ...MissingFrag } }",
    PSelectionSet.mk ⟨["Query"], []⟩ [] [], ["MissingFrag"]⟩

def ctxC8 : NContext :=
  ⟨"schema", [("Q", opC8)], [], [],
    ⟨none, none, none, none, none, none⟩⟩

/-- C8 (counterexample to the claim as stated): on a concrete document whose
operation `Q` references the undefined fragment `MissingFrag`, compilation
aborts with the generic undefined-property `TypeError`, whose message
contains neither `MissingFrag` nor `Q`. -/
theorem missing_fragment_generic_error_cex :
    compileToLegacyIR ctxC8 = Except.error jsUndefinedSourceError
  ∧ ¬ List.IsInfix "MissingFrag".toList jsUndefinedSourceError.toList
  ∧ ¬ List.IsInfix "Q".toList jsUndefinedSourceError.toList := by
  refine ⟨rfl, by decide, by decide⟩

theorem missing_fragment_aborts_generic_witness :
    compileToLegacyIR ctxC8 = Except.error jsUndefinedSourceError :=
  missing_fragment_aborts_generic ctxC8
    ⟨("Q", opC8), List.mem_cons_self _ _, "MissingFrag", List.mem_cons_self _ _, rfl⟩

/-! ## C9 -/

/-- C9: `compileToLegacyIR` is deterministic — equal inputs (schema, upstream
document IR, options) produce equal outputs, including equal operation and
fragment mappings (hence equal fields, fragment spreads, inline-fragment
orderings and identifiers). -/
theorem compileToLegacyIR_deterministic (ctx1 ctx2 : NContext) (h : ctx1 = ctx2) :
    compileToLegacyIR ctx1 = compileToLegacyIR ctx2
  ∧ ∀ l1 l2, compileToLegacyIR ctx1 = Except.ok l1
      → compileToLegacyIR ctx2 = Except.ok l2
      → l1.operations = l2.operations ∧ l1.fragments = l2.fragments := by
  subst h
  refine ⟨rfl, ?_⟩
  intro l1 l2 h1 h2
  rw [h1] at h2
  cases h2
  exact ⟨rfl, rfl⟩

def ctxC9 : NContext :=
  ⟨"schema", [], [], [], ⟨none, none, none, none, none, none⟩⟩

theorem compileToLegacyIR_deterministic_witness :
    compileToLegacyIR ctxC9 = compileToLegacyIR ctxC9
  ∧ ∀ l1 l2, compileToLegacyIR ctxC9 = Except.ok l1
      → compileToLegacyIR ctxC9 = Except.ok l2
      → l1.operations = l2.operations ∧ l1.fragments = l2.fragments :=
  compileToLegacyIR_deterministic ctxC9 ctxC9 rfl

end LegacyIR

